import Mathlib

/-!
Verification of the two numerical components of SimulationRunner:
`get_neutrino_masses` (src/SimulationRunner/simulationics.py) and
`change_power_spectrum_knots` (src/SimulationRunner/lyasimulation.py).

Python floats are modelled as exact real numbers (for the neutrino-mass
solver, which uses square roots) and as exact rationals (for the knot
reweighter, which uses only field operations on the values that the claims
are about).  Numpy float literals such as `0.95` or `1e-5` are modelled by
the corresponding decimal rationals.  A Python function that can raise
(an `assert` failure, an `IndexError` from indexing, or a scipy
out-of-range `ValueError`) is modelled as returning `Option`, with `none`
for any raise.
-/

namespace SimulationRunner

/-! ### `get_neutrino_masses` (simulationics.py, lines 567-597)

Neutrino mass splittings, from the source:
`nu_M21 = 7.53e-5`, `nu_M32n = 2.44e-3`, `nu_M32i = 2.51e-3`. -/

noncomputable section

def nu_M21 : ℝ := 7.53e-5

def nu_M32n : ℝ := 2.44e-3

def nu_M32i : ℝ := 2.51e-3

/-- `DD1 = 4 * total_mass/3. - 2/3.*np.sqrt(total_mass**2 + 3*nu_M32 + 1.5*nu_M21)` -/
def neutrino_DD1 (total_mass nu_M32 : ℝ) : ℝ :=
  4 * total_mass / 3 - 2 / 3 * Real.sqrt (total_mass ^ 2 + 3 * nu_M32 + 1.5 * nu_M21)

/-- `DD = 4 * total_mass/3. - 2/3.*np.sqrt(total_mass**2 + 3*nu_M32 + 1.5*nu_M21 + 0.75*nu_M21**2/DD1**2)` -/
def neutrino_DD (total_mass nu_M32 : ℝ) : ℝ :=
  4 * total_mass / 3 -
    2 / 3 * Real.sqrt (total_mass ^ 2 + 3 * nu_M32 + 1.5 * nu_M21 +
      0.75 * nu_M21 ^ 2 / (neutrino_DD1 total_mass nu_M32) ^ 2)

/-- `nu_masses = np.array([total_mass - DD, 0.5*(DD + nu_M21/DD), 0.5*(DD - nu_M21/DD)])` -/
def neutrino_mass_triple (total_mass nu_M32 : ℝ) : ℝ × ℝ × ℝ :=
  (total_mass - neutrino_DD total_mass nu_M32,
   0.5 * (neutrino_DD total_mass nu_M32 + nu_M21 / neutrino_DD total_mass nu_M32),
   0.5 * (neutrino_DD total_mass nu_M32 - nu_M21 / neutrino_DD total_mass nu_M32))

open Classical in
/-- The tail of `get_neutrino_masses` shared by the `normal` and `inverted`
branches.  The source runs
`assert np.isfinite(DD)`, `assert np.abs(DD1/DD - 1) < 2e-2`,
`assert np.all(nu_masses >= 0)` and then returns `nu_masses`; an assert
failure is modelled as `none`.  `np.isfinite(DD)` holds for every real
number, so in this exact-real model that first assert cannot fail and is
modelled by the (always true) conjunct it contributes being omitted. -/
def neutrino_branch (total_mass nu_M32 : ℝ) : Option (ℝ × ℝ × ℝ) :=
  if |neutrino_DD1 total_mass nu_M32 / neutrino_DD total_mass nu_M32 - 1| < 2e-2 ∧
      0 ≤ (neutrino_mass_triple total_mass nu_M32).1 ∧
      0 ≤ (neutrino_mass_triple total_mass nu_M32).2.1 ∧
      0 ≤ (neutrino_mass_triple total_mass nu_M32).2.2 then
    some (neutrino_mass_triple total_mass nu_M32)
  else none

open Classical in
/-- `get_neutrino_masses(total_mass, hierarchy)` from simulationics.py.
Any `hierarchy` other than `'normal'` and `'inverted'` falls into the
`else` branch (`#Hierarchy == 0 is 3 degenerate neutrinos`) and returns
`np.ones(3)*total_mass/3.`. -/
def get_neutrino_masses (total_mass : ℝ) (hierarchy : String) : Option (ℝ × ℝ × ℝ) :=
  if hierarchy = "normal" then
    if total_mass < Real.sqrt nu_M32n + Real.sqrt nu_M21 then
      some (total_mass, 0, 0)
    else neutrino_branch total_mass nu_M32n
  else if hierarchy = "inverted" then
    if total_mass < 2 * Real.sqrt nu_M32i - Real.sqrt nu_M21 then
      some (total_mass / 2, total_mass / 2, 0)
    else neutrino_branch total_mass (-nu_M32i)
  else
    some (total_mass / 3, total_mass / 3, total_mass / 3)

end

/-! #### Basic facts about the neutrino splitter -/

lemma neutrino_mass_triple_sum (M nu32 : ℝ) :
    (neutrino_mass_triple M nu32).1 + (neutrino_mass_triple M nu32).2.1 +
      (neutrino_mass_triple M nu32).2.2 = M := by
  unfold neutrino_mass_triple
  ring

lemma neutrino_branch_some {M nu32 : ℝ} {t : ℝ × ℝ × ℝ}
    (h : neutrino_branch M nu32 = some t) :
    t = neutrino_mass_triple M nu32 ∧
      |neutrino_DD1 M nu32 / neutrino_DD M nu32 - 1| < 2e-2 ∧
      0 ≤ (neutrino_mass_triple M nu32).1 ∧
      0 ≤ (neutrino_mass_triple M nu32).2.1 ∧
      0 ≤ (neutrino_mass_triple M nu32).2.2 := by
  unfold neutrino_branch at h
  split at h
  · exact ⟨(Option.some_inj.mp h).symm, by assumption⟩
  · exact absurd h (by simp)

/-- C1.  For every valid input (`total_mass ≥ 0`, hierarchy one of
`normal`/`inverted`/`degenerate`), the three returned values sum to
`total_mass` within `1e-6` relative tolerance.  (In exact arithmetic the
sum is exactly `total_mass` in every branch.) -/
theorem get_neutrino_masses_sum_total (M : ℝ) (h : String) (hM : 0 ≤ M)
    (hh : h = "normal" ∨ h = "inverted" ∨ h = "degenerate")
    (a b c : ℝ) (hr : get_neutrino_masses M h = some (a, b, c)) :
    |a + b + c - M| ≤ 1e-6 * M := by
  have hsum : a + b + c = M := by
    unfold get_neutrino_masses at hr
    split_ifs at hr with h1 h2 h3 h4
    · obtain ⟨rfl, rfl, rfl⟩ : M = a ∧ (0 : ℝ) = b ∧ (0 : ℝ) = c := by
        simpa [Prod.ext_iff] using hr
      ring
    · obtain ⟨ht, -⟩ := neutrino_branch_some hr
      have := neutrino_mass_triple_sum M nu_M32n
      rw [← ht] at this
      simpa using this
    · obtain ⟨rfl, rfl, rfl⟩ : M / 2 = a ∧ M / 2 = b ∧ (0 : ℝ) = c := by
        simpa [Prod.ext_iff] using hr
      ring
    · obtain ⟨ht, -⟩ := neutrino_branch_some hr
      have := neutrino_mass_triple_sum M (-nu_M32i)
      rw [← ht] at this
      simpa using this
    · obtain ⟨rfl, rfl, rfl⟩ : M / 3 = a ∧ M / 3 = b ∧ M / 3 = c := by
        simpa [Prod.ext_iff] using hr
      ring
  rw [hsum]
  simp only [sub_self, abs_zero]
  positivity

/-- Witness for C1 at `total_mass = 1`, `hierarchy = "degenerate"`. -/
theorem get_neutrino_masses_sum_total_witness :
    |(1 : ℝ) / 3 + 1 / 3 + 1 / 3 - 1| ≤ 1e-6 * 1 := by
  have hsome : get_neutrino_masses 1 "degenerate" = some (1 / 3, 1 / 3, 1 / 3) := by
    unfold get_neutrino_masses
    rw [if_neg (by decide), if_neg (by decide)]
  exact get_neutrino_masses_sum_total 1 "degenerate" (by norm_num)
    (Or.inr (Or.inr rfl)) _ _ _ hsome

/-- C10.  Any hierarchy string other than `"normal"` and `"inverted"`
falls through to the degenerate branch: no error is raised and the equal
three-way split is returned. -/
theorem get_neutrino_masses_default_degenerate (M : ℝ) (h : String)
    (h1 : h ≠ "normal") (h2 : h ≠ "inverted") :
    get_neutrino_masses M h = some (M / 3, M / 3, M / 3) := by
  unfold get_neutrino_masses
  rw [if_neg h1, if_neg h2]

/-- Witness for C10 at `total_mass = 3`, `hierarchy = "bogus"`. -/
theorem get_neutrino_masses_default_degenerate_witness :
    get_neutrino_masses 3 "bogus" = some (3 / 3, 3 / 3, 3 / 3) :=
  get_neutrino_masses_default_degenerate 3 "bogus" (by decide) (by decide)

/-- C2, counterexample.  The claim says a malformed hierarchy name raises a
fatal input-validation error; instead `get_neutrino_masses` returns the
degenerate split.  Concretely, `get_neutrino_masses(6, 'unknown')` returns
`[2, 2, 2]` rather than raising. -/
theorem get_neutrino_masses_bad_hierarchy_returns :
    get_neutrino_masses 6 "unknown" = some (2, 2, 2) := by
  unfold get_neutrino_masses
  rw [if_neg (by decide), if_neg (by decide)]
  norm_num

/-- C2, amended.  `get_neutrino_masses` performs no validation of the
hierarchy name: every string outside `{"normal", "inverted"}` is treated
as the degenerate hierarchy and the call returns the equal split
`[total_mass/3, total_mass/3, total_mass/3]` without error. -/
theorem get_neutrino_masses_no_hierarchy_validation (M : ℝ) (h : String)
    (h1 : h ≠ "normal") (h2 : h ≠ "inverted") :
    (get_neutrino_masses M h).isSome = true ∧
      get_neutrino_masses M h = some (M / 3, M / 3, M / 3) := by
  unfold get_neutrino_masses
  rw [if_neg h1, if_neg h2]
  exact ⟨rfl, rfl⟩

/-- Witness for the amended C2 at `total_mass = 9`, `hierarchy = "degenerate"`. -/
theorem get_neutrino_masses_no_hierarchy_validation_witness :
    (get_neutrino_masses 9 "degenerate").isSome = true ∧
      get_neutrino_masses 9 "degenerate" = some (9 / 3, 9 / 3, 9 / 3) :=
  get_neutrino_masses_no_hierarchy_validation 9 "degenerate" (by decide) (by decide)

/-- The `nu_M32` value selected by the hierarchy branch that reaches the
shared `DD` computation: `nu_M32 = nu_M32n` for `'normal'`,
`nu_M32 = -nu_M32i` for `'inverted'`. -/
noncomputable def hierarchy_nu_M32 (h : String) : ℝ :=
  if h = "normal" then nu_M32n else -nu_M32i

/-- C9.  For hierarchy `normal`/`inverted` at or above the branch
threshold, a value is returned only if the one-step refinement moved `DD`
by less than 2% relative to `DD1` and all three masses are non-negative
(the asserts at the end of `get_neutrino_masses`); otherwise the function
raises.  `np.isfinite(DD)` is identically true in this exact-real model. -/
theorem get_neutrino_masses_postconditions (M : ℝ) (h : String)
    (hcase : (h = "normal" ∧ Real.sqrt nu_M32n + Real.sqrt nu_M21 ≤ M) ∨
      (h = "inverted" ∧ 2 * Real.sqrt nu_M32i - Real.sqrt nu_M21 ≤ M))
    (a b c : ℝ) (hr : get_neutrino_masses M h = some (a, b, c)) :
    |neutrino_DD1 M (hierarchy_nu_M32 h) / neutrino_DD M (hierarchy_nu_M32 h) - 1| < 2e-2 ∧
      0 ≤ a ∧ 0 ≤ b ∧ 0 ≤ c := by
  rcases hcase with ⟨rfl, hth⟩ | ⟨rfl, hth⟩
  · unfold get_neutrino_masses at hr
    rw [if_pos rfl, if_neg (not_lt.mpr hth)] at hr
    obtain ⟨ht, hg, h1, h2, h3⟩ := neutrino_branch_some hr
    have hn : hierarchy_nu_M32 "normal" = nu_M32n := by
      unfold hierarchy_nu_M32; rw [if_pos rfl]
    obtain ⟨rfl, rfl, rfl⟩ : a = (neutrino_mass_triple M nu_M32n).1 ∧
        b = (neutrino_mass_triple M nu_M32n).2.1 ∧
        c = (neutrino_mass_triple M nu_M32n).2.2 := by
      simpa [Prod.ext_iff] using ht
    rw [hn]
    exact ⟨hg, h1, h2, h3⟩
  · unfold get_neutrino_masses at hr
    rw [if_neg (by decide), if_pos rfl, if_neg (not_lt.mpr hth)] at hr
    obtain ⟨ht, hg, h1, h2, h3⟩ := neutrino_branch_some hr
    have hn : hierarchy_nu_M32 "inverted" = -nu_M32i := by
      unfold hierarchy_nu_M32; rw [if_neg (by decide)]
    obtain ⟨rfl, rfl, rfl⟩ : a = (neutrino_mass_triple M (-nu_M32i)).1 ∧
        b = (neutrino_mass_triple M (-nu_M32i)).2.1 ∧
        c = (neutrino_mass_triple M (-nu_M32i)).2.2 := by
      simpa [Prod.ext_iff] using ht
    rw [hn]
    exact ⟨hg, h1, h2, h3⟩

/-- Two-sided bound on a square root from rational bounds on the radicand. -/
lemma sqrt_bounds {x l u : ℝ} (hl : 0 ≤ l) (hu : 0 ≤ u)
    (h1 : l ^ 2 ≤ x) (h2 : x ≤ u ^ 2) :
    l ≤ Real.sqrt x ∧ Real.sqrt x ≤ u := by
  constructor
  · have := Real.sqrt_le_sqrt h1
    rwa [Real.sqrt_sq hl] at this
  · have := Real.sqrt_le_sqrt h2
    rwa [Real.sqrt_sq hu] at this

/-- Numeric bounds on `DD1` and `DD` at `total_mass = 1` in the normal
hierarchy, used by the C9 witness. -/
lemma neutrino_DD_bounds_at_one :
    1.9924 / 3 ≤ neutrino_DD1 1 nu_M32n ∧ neutrino_DD1 1 nu_M32n ≤ 1.9926 / 3 ∧
      1.9924 / 3 ≤ neutrino_DD 1 nu_M32n ∧ neutrino_DD 1 nu_M32n ≤ 1.9926 / 3 := by
  have hA : (1 : ℝ) ^ 2 + 3 * nu_M32n + 1.5 * nu_M21 = 1.00743295 := by
    unfold nu_M32n nu_M21; norm_num
  obtain ⟨hs1l, hs1u⟩ := sqrt_bounds (x := (1.00743295 : ℝ)) (l := 1.0037) (u := 1.0038)
    (by norm_num) (by norm_num) (by norm_num) (by norm_num)
  have hDD1 : neutrino_DD1 1 nu_M32n = 4 * 1 / 3 - 2 / 3 * Real.sqrt 1.00743295 := by
    unfold neutrino_DD1; rw [hA]
  have hDD1l : 1.9924 / 3 ≤ neutrino_DD1 1 nu_M32n := by rw [hDD1]; linarith
  have hDD1u : neutrino_DD1 1 nu_M32n ≤ 1.9926 / 3 := by rw [hDD1]; linarith
  have hsq : (0.441 : ℝ) ≤ (neutrino_DD1 1 nu_M32n) ^ 2 := by nlinarith
  have hEl : (0 : ℝ) ≤ 0.75 * nu_M21 ^ 2 / (neutrino_DD1 1 nu_M32n) ^ 2 := by
    unfold nu_M21; positivity
  have hEu : 0.75 * nu_M21 ^ 2 / (neutrino_DD1 1 nu_M32n) ^ 2 ≤ 1e-8 := by
    have step : 0.75 * nu_M21 ^ 2 / (neutrino_DD1 1 nu_M32n) ^ 2 ≤
        0.75 * nu_M21 ^ 2 / 0.441 := by
      have hnum : (0 : ℝ) ≤ 0.75 * nu_M21 ^ 2 := by unfold nu_M21; positivity
      gcongr
    have : (0.75 : ℝ) * nu_M21 ^ 2 / 0.441 ≤ 1e-8 := by unfold nu_M21; norm_num
    linarith
  obtain ⟨hs2l, hs2u⟩ := sqrt_bounds
    (x := (1.00743295 : ℝ) + 0.75 * nu_M21 ^ 2 / (neutrino_DD1 1 nu_M32n) ^ 2)
    (l := 1.0037) (u := 1.0038) (by norm_num) (by norm_num)
    (by norm_num; linarith) (by norm_num; linarith)
  have hDD : neutrino_DD 1 nu_M32n = 4 * 1 / 3 -
      2 / 3 * Real.sqrt (1.00743295 + 0.75 * nu_M21 ^ 2 / (neutrino_DD1 1 nu_M32n) ^ 2) := by
    unfold neutrino_DD
    rw [show (1 : ℝ) ^ 2 + 3 * nu_M32n + 1.5 * nu_M21 + 0.75 * nu_M21 ^ 2 /
        (neutrino_DD1 1 nu_M32n) ^ 2 = 1.00743295 + 0.75 * nu_M21 ^ 2 /
        (neutrino_DD1 1 nu_M32n) ^ 2 by rw [← hA]]
  refine ⟨hDD1l, hDD1u, ?_, ?_⟩
  · rw [hDD]; linarith
  · rw [hDD]; linarith

/-- Witness for C9 at `total_mass = 1`, `hierarchy = "normal"`: the call
returns, and the returned triple satisfies all the checked postconditions. -/
theorem get_neutrino_masses_postconditions_witness :
    get_neutrino_masses 1 "normal" = some (neutrino_mass_triple 1 nu_M32n) ∧
      |neutrino_DD1 1 (hierarchy_nu_M32 "normal") /
          neutrino_DD 1 (hierarchy_nu_M32 "normal") - 1| < 2e-2 ∧
      0 ≤ (neutrino_mass_triple 1 nu_M32n).1 ∧
      0 ≤ (neutrino_mass_triple 1 nu_M32n).2.1 ∧
      0 ≤ (neutrino_mass_triple 1 nu_M32n).2.2 := by
  obtain ⟨hDD1l, hDD1u, hDDl, hDDu⟩ := neutrino_DD_bounds_at_one
  have hDDpos : (0 : ℝ) < neutrino_DD 1 nu_M32n := by linarith
  have hmu : nu_M21 = (7.53e-5 : ℝ) := rfl
  have hratio : |neutrino_DD1 1 nu_M32n / neutrino_DD 1 nu_M32n - 1| < 2e-2 := by
    rw [abs_lt]
    constructor
    · have : (0.98 : ℝ) * neutrino_DD 1 nu_M32n < neutrino_DD1 1 nu_M32n := by linarith
      have := (lt_div_iff₀ hDDpos).mpr this
      linarith
    · have : neutrino_DD1 1 nu_M32n < (1.02 : ℝ) * neutrino_DD 1 nu_M32n := by linarith
      have := (div_lt_iff₀ hDDpos).mpr this
      linarith
  have hm1 : 0 ≤ (neutrino_mass_triple 1 nu_M32n).1 := by
    show (0 : ℝ) ≤ 1 - neutrino_DD 1 nu_M32n
    linarith
  have hdivu : nu_M21 / neutrino_DD 1 nu_M32n ≤ nu_M21 / (1.9924 / 3) := by
    have h0 : (0 : ℝ) ≤ nu_M21 := by rw [hmu]; norm_num
    gcongr
  have hdivl : 0 ≤ nu_M21 / neutrino_DD 1 nu_M32n := by
    rw [hmu]; positivity
  have hm2 : 0 ≤ (neutrino_mass_triple 1 nu_M32n).2.1 := by
    show (0 : ℝ) ≤ 0.5 * (neutrino_DD 1 nu_M32n + nu_M21 / neutrino_DD 1 nu_M32n)
    linarith
  have hm3 : 0 ≤ (neutrino_mass_triple 1 nu_M32n).2.2 := by
    show (0 : ℝ) ≤ 0.5 * (neutrino_DD 1 nu_M32n - nu_M21 / neutrino_DD 1 nu_M32n)
    have : nu_M21 / (1.9924 / 3) ≤ (0.00012 : ℝ) := by rw [hmu]; norm_num
    linarith
  have hguard : |neutrino_DD1 1 nu_M32n / neutrino_DD 1 nu_M32n - 1| < 2e-2 ∧
      0 ≤ (neutrino_mass_triple 1 nu_M32n).1 ∧
      0 ≤ (neutrino_mass_triple 1 nu_M32n).2.1 ∧
      0 ≤ (neutrino_mass_triple 1 nu_M32n).2.2 := ⟨hratio, hm1, hm2, hm3⟩
  have hth : Real.sqrt nu_M32n + Real.sqrt nu_M21 ≤ 1 := by
    have h1 := (sqrt_bounds (x := nu_M32n) (l := 0) (u := 0.05) le_rfl (by norm_num)
      (by unfold nu_M32n; norm_num) (by unfold nu_M32n; norm_num)).2
    have h2 := (sqrt_bounds (x := nu_M21) (l := 0) (u := 0.01) le_rfl (by norm_num)
      (by unfold nu_M21; norm_num) (by unfold nu_M21; norm_num)).2
    linarith
  have hsome : get_neutrino_masses 1 "normal" = some (neutrino_mass_triple 1 nu_M32n) := by
    unfold get_neutrino_masses
    rw [if_pos rfl, if_neg (not_lt.mpr hth)]
    unfold neutrino_branch
    rw [if_pos hguard]
  refine ⟨hsome, ?_⟩
  exact get_neutrino_masses_postconditions 1 "normal" (Or.inl ⟨rfl, hth⟩)
    (neutrino_mass_triple 1 nu_M32n).1 (neutrino_mass_triple 1 nu_M32n).2.1
    (neutrino_mass_triple 1 nu_M32n).2.2 hsome

/-! ### `change_power_spectrum_knots` (lyasimulation.py, lines 96-147)

The power table `matpow` is modelled as a list of `(k, P)` pairs of
rationals; the source keeps two parallel arrays `kval`/`pval` that are
always indexed, inserted into and deleted from with the same index
vectors, which is equivalent to operating on the list of rows.  The numpy
primitives used by the source are modelled below (`searchsorted`,
`npInsert` for `np.insert`, `pyGet` for indexing with Python's negative
wraparound).  scipy's `interp1d(..., kind='linear')` is `interpLinear`;
scipy's log-log cubic interpolant `pint` (external library code) is kept
abstract as a parameter `pkInterp : ℚ → ℚ` standing for
`k ↦ exp(pint(log k))`, so every theorem below holds for the actual
spline in particular.  (scipy's out-of-range `ValueError` for `pint` is
not modelled, which only enlarges the set of inputs on which the model
returns: this is sound for all return-conditioned claims.) -/

/-- `np.searchsorted(xs, v)` with the default `side='left'` on a sorted
list: the first index at which `v` could be inserted keeping order. -/
def searchsorted (xs : List ℚ) (v : ℚ) : Nat :=
  match xs with
  | [] => 0
  | x :: r => if v ≤ x then 0 else searchsorted r v + 1

/-- Python/numpy list indexing: non-negative indices are plain positions,
negative indices wrap around from the end, anything else is an
`IndexError` (`none`). -/
def pyGet {α : Type} (xs : List α) (i : Int) : Option α :=
  if 0 ≤ i then xs.get? i.toNat
  else if (-i).toNat ≤ xs.length then xs.get? (xs.length - (-i).toNat) else none

/-- `np.insert(xs, idx, vals)` for a list of `(index, value)` pairs whose
indices refer to positions of the ORIGINAL list and are nondecreasing (as
produced by `np.searchsorted` on sorted values, the only way the source
uses it): each value is placed before the original element at its index,
values sharing an index staying in the given order. -/
def npInsert {α : Type} (xs : List α) (ins : List (Nat × α)) : List α :=
  match xs with
  | [] => ins.map Prod.snd
  | x :: xs' =>
      (ins.filter (fun p => p.1 == 0)).map Prod.snd ++
        x :: npInsert xs' ((ins.filter (fun p => p.1 != 0)).map (fun p => (p.1 - 1, p.2)))

/-- Vectorized application of a fallible function: `none` as soon as any
element fails (numpy raises on the whole vectorized operation). -/
def optMap {α β : Type} (f : α → Option β) : List α → Option (List β)
  | [] => some []
  | a :: l => do
      let b ← f a
      let r ← optMap f l
      pure (b :: r)

/-- `collision = np.where(np.abs(kval[1:] - kval[:-1]) < 1e-5 * kval[1:])`
followed by `np.delete(kval, collision)` / `np.delete(pval, collision)`:
`np.where` collects exactly the indices whose SUCCESSOR row's k is within
relative tolerance, and `np.delete` removes those rows, i.e. every row
whose successor is within `1e-5` relative tolerance of it is dropped.
Implemented by direct recursion on the row list. -/
def dedup : List (ℚ × ℚ) → List (ℚ × ℚ)
  | [] => []
  | [x] => [x]
  | x :: y :: r =>
      if |y.1 - x.1| < 1e-5 * y.1 then dedup (y :: r)
      else x :: dedup (y :: r)

/-- `scipy.interpolate.interp1d(xs, ys, kind='linear')` evaluated at `v`,
for node lists given in sorted order (as the source always does):
straight-line interpolation on the segment containing `v`, and a
`ValueError` (`none`) outside the node range. -/
def interpLinear : List (ℚ × ℚ) → ℚ → Option ℚ
  | [], _ => none
  | [p], v => if v == p.1 then some p.2 else none
  | p :: q :: r, v =>
      if v < p.1 then none
      else if v ≤ q.1 then some (p.2 + (q.2 - p.2) * (v - p.1) / (q.1 - p.1))
      else interpLinear (q :: r) v

/-- `np.all(xs)` on a float array, as the float scalar Python uses when
comparing it with numbers: `True` (= 1.0) iff every entry is nonzero. -/
def npAll (xs : List ℚ) : ℚ :=
  if xs.all (fun x => x != 0) then 1 else 0

/-- The assert block at the head of `change_power_spectrum_knots`
(lines 107-115), faithfully including the scalar `np.all` comparisons:
```
assert np.all([k1 < k1p for (k1, k1p) in zip(knotpos[:-1], knotpos[1:])])
assert np.shape(knotval) == np.shape(knotpos)
assert np.all(knotpos) > 0
assert np.all(knotpos) > kval[0] and np.all(knotpos) < kval[-1]
assert np.all(knotval) > 0
```
Note `np.all(knotpos)` is a boolean scalar (1.0 or 0.0), so the third to
fifth asserts do NOT compare each knot with the table bounds. -/
def cpskPreChecks (knotpos knotval : List ℚ) (matpow : List (ℚ × ℚ)) : Bool :=
  let kval := matpow.map Prod.fst
  decide (List.Chain' (· < ·) knotpos) &&
    (knotval.length == knotpos.length) &&
    decide (npAll knotpos > 0) &&
    (decide (npAll knotpos > kval.headI) && decide (npAll knotpos < kval.getLastD 0)) &&
    decide (npAll knotval > 0)

/-- The extended knot set (lines 117-121):
`ext_knotpos = [kval[0]*0.95] ++ knotpos ++ [kval[-1]*1.05]`,
`ext_knotval = [knotval[0]] ++ knotval ++ [knotval[-1]]`,
zipped into the node list fed to the linear interpolator `dpk`. -/
def extKnots (knotpos knotval : List ℚ) (matpow : List (ℚ × ℚ)) : List (ℚ × ℚ) :=
  let kval := matpow.map Prod.fst
  List.zip ((kval.headI * 0.95) :: knotpos ++ [kval.getLastD 0 * 1.05])
    (knotval.headI :: knotval ++ [knotval.getLastD 0])

/-- The local window `kval[imin:imax]` of the table used to build the
log-log cubic interpolant and to pick midpoints (lines 124-125):
`i_limits = np.searchsorted(kval, [knotpos[0]*0.66, knotpos[-1]*1.5])`,
`imin = np.max([0, i_limits[0]-5])` (Nat subtraction already truncates at 0,
the `max` mirrors the source). -/
def cpskImin (knotpos kval : List ℚ) : Nat :=
  max 0 (searchsorted kval (knotpos.headI * 0.66) - 5)

/-- `imax = np.min([len(kval)-1, i_limits[-1]+5])`. -/
def cpskImax (knotpos kval : List ℚ) : Nat :=
  min (kval.length - 1) (searchsorted kval (knotpos.getLastD 0 * 1.5) + 5)

def cpskSub (knotpos kval : List ℚ) : List ℚ :=
  (kval.drop (cpskImin knotpos kval)).take (cpskImax knotpos kval - cpskImin knotpos kval)

/-- One midpoint (line 128):
`midpoints = (kval[imin:imax][locations] + kval[imin:imax][locations-1])/2.`
with `locations = np.searchsorted(kval[imin:imax], knotpos)`.  Numpy fancy
indexing raises `IndexError` when `locations` is out of range and wraps
around for `locations - 1 == -1`, both captured by `pyGet`. -/
def cpskMid (sub : List ℚ) (kp : ℚ) : Option ℚ :=
  let loc := searchsorted sub kp
  (pyGet sub (loc : Int)).bind fun a =>
    (pyGet sub ((loc : Int) - 1)).map fun b => (a + b) / 2

/-- `kplocs = np.searchsorted(knotpos, midpoints)`;
`ins_knotpos = np.insert(knotpos, kplocs, midpoints)` (lines 130-131). -/
def cpskInsKnotpos (knotpos midpoints : List ℚ) : List ℚ :=
  let kplocs := midpoints.map (searchsorted knotpos)
  npInsert knotpos (List.zip kplocs midpoints)

/-- `index = np.searchsorted(kval, ins_knotpos)`;
`kval = np.insert(kval, index, ins_knotpos)`;
`pval = np.insert(pval, index, np.exp(pint(np.log(ins_knotpos))))`
(lines 133-135): the parallel `kval`/`pval` inserts share `index`, i.e.
they insert the rows `(x, pkInterp x)` for `x` in `ins_knotpos`. -/
def cpskAugment (pkInterp : ℚ → ℚ) (knotpos : List ℚ) (matpow : List (ℚ × ℚ))
    (midpoints : List ℚ) : List (ℚ × ℚ) :=
  let kval := matpow.map Prod.fst
  let ins_knotpos := cpskInsKnotpos knotpos midpoints
  let index := ins_knotpos.map (searchsorted kval)
  let newRows := ins_knotpos.map fun x => (x, pkInterp x)
  npInsert matpow (List.zip index newRows)

/-- Lines 124-137 of `change_power_spectrum_knots`: midpoints, then the
row insertion; `none` when `knotpos` is empty (`knotpos[0]` raises). -/
def cpskInsert (pkInterp : ℚ → ℚ) (knotpos : List ℚ) (matpow : List (ℚ × ℚ)) :
    Option (List (ℚ × ℚ)) :=
  match knotpos with
  | [] => none
  | _ :: _ =>
      (optMap (cpskMid (cpskSub knotpos (matpow.map Prod.fst))) knotpos).map
        (cpskAugment pkInterp knotpos matpow)

/-- `change_power_spectrum_knots(knotpos, knotval, matpow)` from
lyasimulation.py, parametrized by the abstract log-log cubic interpolant
`pkInterp` (see the section comment).  After the asserts and the row
insertion come the near-duplicate removal, the uniqueness assert
(`assert np.size(np.unique(kval)) == np.size(kval)`, modelled as a
`Nodup` test), and the multiplication of every `P` by the linear
correction `dpk` over the extended knot set
(`dpk = interp1d(ext_knotpos, ext_knotval, kind='linear')`,
`pval *= dpk(kval)`).  An empty `matpow` raises `IndexError` at
`kval[0]` inside the asserts; an empty `knotval` either fails the shape
assert or raises `IndexError` at `knotval[0]` in the extended-knot
construction — all modelled as `none`. -/
def change_power_spectrum_knots (pkInterp : ℚ → ℚ) (knotpos knotval : List ℚ)
    (matpow : List (ℚ × ℚ)) : Option (List (ℚ × ℚ)) :=
  match matpow, knotval with
  | [], _ => none
  | _ :: _, [] => none
  | _ :: _, _ :: _ =>
      if cpskPreChecks knotpos knotval matpow then
        (cpskInsert pkInterp knotpos matpow).bind fun aug =>
          if (((dedup aug).map Prod.fst).Nodup : Prop) then
            optMap (fun r => (interpLinear (extKnots knotpos knotval matpow) r.1).map
              (fun w => (r.1, r.2 * w))) (dedup aug)
          else none
      else none

/-! #### Infrastructure lemmas for the numpy primitives -/

/-- The `(index, value)` pair list `zip(np.searchsorted(map f xs, vals), vals)`
that the source feeds to `np.insert`, with `f` the key of the inserted
objects (`id` for plain arrays, `Prod.fst` for table rows). -/
def mkIns {α : Type} (f : α → ℚ) (xs vs : List α) : List (Nat × α) :=
  vs.map (fun v => (searchsorted (xs.map f) (f v), v))

/-- Sorted merge equivalent (proved below) of `np.insert` at `searchsorted`
positions: on equal keys the inserted element goes first, matching
`side='left'`. -/
def mergeIns {α : Type} (f : α → ℚ) : List α → List α → List α
  | [], vs => vs
  | x :: xs, [] => x :: xs
  | x :: xs, v :: vs =>
      if f v ≤ f x then v :: mergeIns f (x :: xs) vs
      else x :: mergeIns f xs (v :: vs)
  termination_by xs vs => xs.length + vs.length

lemma searchsorted_le_length (xs : List ℚ) (v : ℚ) : searchsorted xs v ≤ xs.length := by
  induction xs with
  | nil => simp [searchsorted]
  | cons x r ih =>
      rw [searchsorted]
      split
      · simp
      · simpa using ih

lemma get_lt_of_lt_searchsorted {xs : List ℚ} {v : ℚ} {j : Nat} (hj : j < xs.length)
    (h : j < searchsorted xs v) : xs.get ⟨j, hj⟩ < v := by
  induction xs generalizing j with
  | nil => exact absurd hj (by simp)
  | cons x r ih =>
      rw [searchsorted] at h
      split at h
      · exact absurd h (by simp)
      · match j with
        | 0 => simpa using lt_of_not_le (by assumption)
        | j + 1 => exact ih (by simpa using hj) (by omega)

lemma le_get_of_searchsorted_le {xs : List ℚ} (hxs : xs.Pairwise (· ≤ ·)) {v : ℚ}
    {j : Nat} (hj : j < xs.length) (h : searchsorted xs v ≤ j) : v ≤ xs.get ⟨j, hj⟩ := by
  induction xs generalizing j with
  | nil => exact absurd hj (by simp)
  | cons x r ih =>
      rw [searchsorted] at h
      rw [List.pairwise_cons] at hxs
      split at h
      · match j with
        | 0 => simpa using (by assumption : v ≤ x)
        | j + 1 =>
            have hx : v ≤ x := by assumption
            have : x ≤ r.get ⟨j, by simpa using hj⟩ := hxs.1 _ (List.get_mem _ _ _)
            simpa using le_trans hx this
      · match j with
        | 0 => exact absurd h (by omega)
        | j + 1 => exact ih hxs.2 (by simpa using hj) (by omega)

lemma searchsorted_mono (xs : List ℚ) {v w : ℚ} (h : v ≤ w) :
    searchsorted xs v ≤ searchsorted xs w := by
  induction xs with
  | nil => simp [searchsorted]
  | cons x r ih =>
      rw [searchsorted, searchsorted]
      split
      · simp
      · rw [if_neg (fun hw => ‹¬v ≤ x› (le_trans h hw))]
        omega

lemma searchsorted_pos {x : ℚ} {r : List ℚ} {v : ℚ} (h : x < v) :
    1 ≤ searchsorted (x :: r) v := by
  rw [searchsorted, if_neg (not_le.mpr h)]
  omega

lemma filterOfMap {α β : Type} (g : α → β) (p : β → Bool) (l : List α) :
    (l.map g).filter p = (l.filter (fun a => p (g a))).map g := by
  induction l with
  | nil => rfl
  | cons a l ih =>
      by_cases h : p (g a) = true
      · simp [h, ih]
      · simp only [List.map_cons, List.filter_cons]
        rw [if_neg (by simpa using h), if_neg (by simpa using h)]
        exact ih

lemma mergeIns_nil_left {α : Type} (f : α → ℚ) (vs : List α) : mergeIns f [] vs = vs := by
  rw [mergeIns]

lemma mergeIns_nil_right {α : Type} (f : α → ℚ) (xs : List α) : mergeIns f xs [] = xs := by
  cases xs <;> rw [mergeIns]

lemma mergeIns_cons_eq {α : Type} (f : α → ℚ) (x : α) (xs vs : List α)
    (hvs : vs.Pairwise (fun a b => f a ≤ f b)) :
    mergeIns f (x :: xs) vs =
      vs.filter (fun v => decide (f v ≤ f x)) ++
        x :: mergeIns f xs (vs.filter (fun v => !decide (f v ≤ f x))) := by
  induction vs with
  | nil => rw [mergeIns_nil_right]; simp [mergeIns_nil_right]
  | cons v vs ih =>
      rw [List.pairwise_cons] at hvs
      rcases le_or_lt (f v) (f x) with h | h
      · rw [mergeIns, if_pos h, ih hvs.2]
        simp [h]
      · rw [mergeIns, if_neg (not_le.mpr h)]
        have h1 : (v :: vs).filter (fun w => decide (f w ≤ f x)) = [] := by
          rw [List.filter_eq_nil_iff]
          intro w hw
          rcases List.mem_cons.mp hw with rfl | hw
          · simpa using not_le.mpr h
          · simpa using not_le.mpr (lt_of_lt_of_le h (hvs.1 w hw))
        have h2 : (v :: vs).filter (fun w => !decide (f w ≤ f x)) = v :: vs := by
          rw [List.filter_eq_self]
          intro w hw
          rcases List.mem_cons.mp hw with rfl | hw
          · simpa using not_le.mpr h
          · simpa using not_le.mpr (lt_of_lt_of_le h (hvs.1 w hw))
        rw [h1, h2]
        rfl

/-- `np.insert` at `searchsorted(..., side='left')` positions of sorted
values is the sorted merge in which ties favour the inserted values. -/
lemma npInsert_mkIns {α : Type} (f : α → ℚ) (xs : List α) {vs : List α}
    (hvs : vs.Pairwise (fun a b => f a ≤ f b)) :
    npInsert xs (mkIns f xs vs) = mergeIns f xs vs := by
  induction xs generalizing vs with
  | nil =>
      rw [mergeIns_nil_left, npInsert]
      unfold mkIns
      rw [List.map_map]
      exact List.map_id vs
  | cons x xs ih =>
      rw [npInsert]
      have hz : ∀ v : α, (searchsorted ((x :: xs).map f) (f v) == 0) =
          decide (f v ≤ f x) := by
        intro v
        simp only [List.map_cons, searchsorted]
        split
        · simp [*]
        · simp [*]
      have hz' : ∀ v : α, (searchsorted ((x :: xs).map f) (f v) != 0) =
          !decide (f v ≤ f x) := by
        intro v
        rw [← hz v]
        simp [bne]
      have h1 : ((mkIns f (x :: xs) vs).filter (fun p => p.1 == 0)).map Prod.snd =
          vs.filter (fun v => decide (f v ≤ f x)) := by
        unfold mkIns
        rw [filterOfMap, List.map_map]
        rw [List.filter_congr (fun v _ => hz v)]
        exact List.map_id _
      have h2 : ((mkIns f (x :: xs) vs).filter (fun p => p.1 != 0)).map
            (fun p => (p.1 - 1, p.2)) =
          mkIns f xs (vs.filter (fun v => !decide (f v ≤ f x))) := by
        unfold mkIns
        rw [filterOfMap, List.map_map]
        rw [List.filter_congr (fun v _ => hz' v)]
        apply List.map_congr_left
        intro v hv
        have hvx : ¬ f v ≤ f x := by simpa using List.of_mem_filter hv
        simp only [Function.comp, List.map_cons, searchsorted, if_neg hvx]
        rfl
      rw [h1, h2, ih (List.Pairwise.sublist (List.filter_sublist vs) hvs)]
      rw [mergeIns_cons_eq f x xs vs hvs]

lemma mergeIns_perm {α : Type} (f : α → ℚ) (xs vs : List α) :
    List.Perm (mergeIns f xs vs) (xs ++ vs) := by
  induction xs, vs using mergeIns.induct f with
  | case1 vs => rw [mergeIns_nil_left]; simp
  | case2 x xs => rw [mergeIns_nil_right]; simp
  | case3 x xs v vs h ih =>
      rw [mergeIns, if_pos h]
      exact List.Perm.trans (ih.cons v) List.perm_middle.symm
  | case4 x xs v vs h ih =>
      rw [mergeIns, if_neg h]
      exact ih.cons x

lemma mem_mergeIns {α : Type} {f : α → ℚ} {xs vs : List α} {a : α}
    (h : a ∈ mergeIns f xs vs) : a ∈ xs ∨ a ∈ vs := by
  simpa using (mergeIns_perm f xs vs).mem_iff.mp h

lemma mergeIns_sorted {α : Type} {f : α → ℚ} {xs vs : List α}
    (hxs : xs.Pairwise (fun a b => f a ≤ f b)) (hvs : vs.Pairwise (fun a b => f a ≤ f b)) :
    (mergeIns f xs vs).Pairwise (fun a b => f a ≤ f b) := by
  induction xs, vs using mergeIns.induct f with
  | case1 vs => rw [mergeIns_nil_left]; exact hvs
  | case2 x xs => rw [mergeIns_nil_right]; exact hxs
  | case3 x xs v vs h ih =>
      rw [mergeIns, if_pos h]
      rw [List.pairwise_cons] at hvs
      refine List.pairwise_cons.mpr ⟨?_, ih hxs hvs.2⟩
      intro b hb
      rcases mem_mergeIns hb with hb | hb
      · rcases List.mem_cons.mp hb with rfl | hb
        · exact h
        · exact le_trans h ((List.pairwise_cons.mp hxs).1 b hb)
      · exact hvs.1 b hb
  | case4 x xs v vs h ih =>
      rw [mergeIns, if_neg h]
      rw [List.pairwise_cons] at hxs
      refine List.pairwise_cons.mpr ⟨?_, ih hxs.2 hvs⟩
      intro b hb
      have hxv : f x ≤ f v := le_of_not_le h
      rcases mem_mergeIns hb with hb | hb
      · exact hxs.1 b hb
      · rcases List.mem_cons.mp hb with rfl | hb
        · exact hxv
        · exact le_trans hxv ((List.pairwise_cons.mp hvs).1 b hb)

lemma filter_key_of_strict {α : Type} {f : α → ℚ} {xs : List α}
    (hxs : xs.Pairwise (fun a b => f a < f b)) {y : α} (hy : y ∈ xs) :
    xs.filter (fun z => f z == f y) = [y] := by
  induction xs with
  | nil => exact absurd hy (by simp)
  | cons x xs ih =>
      rw [List.pairwise_cons] at hxs
      rcases List.mem_cons.mp hy with rfl | hy
      · rw [List.filter_cons, if_pos (by simp)]
        have : xs.filter (fun z => f z == f y) = [] := by
          rw [List.filter_eq_nil_iff]
          intro w hw
          simpa using ne_of_gt (hxs.1 w hw)
        rw [this]
      · rw [List.filter_cons, if_neg (by simpa using ne_of_lt (hxs.1 y hy))]
        exact ih hxs.2 hy

lemma mergeIns_filter_key {α : Type} {f : α → ℚ} {xs vs : List α}
    (hxs : xs.Pairwise (fun a b => f a < f b)) (hvs : vs.Pairwise (fun a b => f a ≤ f b))
    {y : α} (hy : y ∈ xs) :
    (mergeIns f xs vs).filter (fun z => f z == f y) =
      vs.filter (fun z => f z == f y) ++ [y] := by
  induction xs, vs using mergeIns.induct f with
  | case1 vs => exact absurd hy (by simp)
  | case2 x xs =>
      rw [mergeIns_nil_right]
      simpa using filter_key_of_strict hxs hy
  | case3 x xs v vs h ih =>
      rw [mergeIns, if_pos h, List.filter_cons, List.filter_cons]
      rw [List.pairwise_cons] at hvs
      by_cases hvy : (f v == f y) = true
      · rw [if_pos hvy, if_pos hvy, ih hxs hvs.2 hy]
        rfl
      · rw [if_neg hvy, if_neg hvy]
        exact ih hxs hvs.2 hy
  | case4 x xs v vs h ih =>
      rw [mergeIns, if_neg h, List.filter_cons]
      rw [List.pairwise_cons] at hxs
      have hxv : f x < f v := lt_of_not_le h
      rcases List.mem_cons.mp hy with rfl | hy
      · rw [if_pos (by simp)]
        have hgt : ∀ w, w ∈ mergeIns f xs (v :: vs) ∨ w ∈ v :: vs → f y < f w := by
          intro w hw
          have hw' : w ∈ xs ∨ w ∈ v :: vs := by
            rcases hw with hw | hw
            · exact mem_mergeIns hw
            · exact Or.inr hw
          rcases hw' with hw | hw
          · exact hxs.1 w hw
          · rcases List.mem_cons.mp hw with rfl | hw
            · exact hxv
            · exact lt_of_lt_of_le hxv ((List.pairwise_cons.mp hvs).1 w hw)
        have hrest : (mergeIns f xs (v :: vs)).filter (fun z => f z == f y) = [] := by
          rw [List.filter_eq_nil_iff]
          intro w hw
          simpa using ne_of_gt (hgt w (Or.inl hw))
        have hvs0 : (v :: vs).filter (fun z => f z == f y) = [] := by
          rw [List.filter_eq_nil_iff]
          intro w hw
          simpa using ne_of_gt (hgt w (Or.inr hw))
        rw [hrest, hvs0]
        rfl
      · rw [if_neg (by simpa using ne_of_lt (hxs.1 y hy))]
        exact ih hxs.2 hvs hy

/-! #### Properties of the near-duplicate removal -/

lemma dedup_sublist (l : List (ℚ × ℚ)) : List.Sublist (dedup l) l := by
  induction l with
  | nil => rw [dedup]
  | cons x l ih =>
      cases l with
      | nil => rw [dedup]
      | cons y r =>
          rw [dedup]
          split
          · exact List.Sublist.cons x ih
          · exact List.Sublist.cons₂ x ih

/-- The survivor of the near-duplicate removal at any key is the LAST row
with that key, for a table sorted by key with positive keys. -/
lemma dedup_last_of_mem {l : List (ℚ × ℚ)} (hl : l.Pairwise (fun a b => a.1 ≤ b.1))
    (hpos : ∀ z ∈ l, 0 < z.1) {r : ℚ × ℚ} (hr : r ∈ dedup l) :
    (l.filter (fun z => z.1 == r.1)).getLast? = some r := by
  induction l with
  | nil => rw [dedup] at hr; exact absurd hr (by simp)
  | cons x l ih =>
      cases l with
      | nil =>
          rw [dedup] at hr
          obtain rfl : r = x := by simpa using hr
          simp
      | cons y rest =>
          rw [List.pairwise_cons] at hl
          rw [dedup] at hr
          split at hr
          · -- the head `x` is dropped: its successor is within tolerance
            have h' := ih hl.2 (fun z hz => hpos z (List.mem_cons_of_mem x hz)) hr
            rw [List.filter_cons]
            by_cases hx : (x.1 == r.1) = true
            · rw [if_pos hx]
              obtain ⟨z, w, hzw⟩ : ∃ z w,
                  (y :: rest).filter (fun z => z.1 == r.1) = z :: w := by
                cases hd : (y :: rest).filter (fun z => z.1 == r.1) with
                | nil => rw [hd] at h'; exact absurd h' (by simp)
                | cons z w => exact ⟨z, w, rfl⟩
              rw [hzw, List.getLast?_cons_cons, ← hzw, h']
            · rw [if_neg hx]
              exact h'
          · -- the head `x` is kept: its key is strictly below its successor's
            have hxy : x.1 < y.1 := by
              rcases lt_or_eq_of_le (hl.1 y (by simp)) with h | h
              · exact h
              · exfalso
                have hy : (0 : ℚ) < y.1 := hpos y (by simp)
                apply ‹¬|y.1 - x.1| < 1e-5 * y.1›
                rw [← h, sub_self, abs_zero]
                exact mul_pos (by norm_num) (h ▸ hy)
            rcases List.mem_cons.mp hr with rfl | hr
            · rw [List.filter_cons, if_pos (by simp)]
              have h0 : (y :: rest).filter (fun z => z.1 == r.1) = [] := by
                rw [List.filter_eq_nil_iff]
                intro w hw
                have : r.1 < w.1 := by
                  rcases List.mem_cons.mp hw with rfl | hw
                  · exact hxy
                  · exact lt_of_lt_of_le hxy ((List.pairwise_cons.mp hl.2).1 w hw)
                simpa using (ne_of_gt this)
              rw [h0]
              rfl
            · have hrmem : r ∈ y :: rest := (dedup_sublist _).subset hr
              have hxr : x.1 < r.1 := by
                rcases List.mem_cons.mp hrmem with rfl | hrm
                · exact hxy
                · exact lt_of_lt_of_le hxy ((List.pairwise_cons.mp hl.2).1 r hrm)
              rw [List.filter_cons, if_neg (by simpa using ne_of_lt hxr)]
              exact ih hl.2 (fun z hz => hpos z (List.mem_cons_of_mem x hz)) hr

/-! #### Properties of the linear interpolator -/

/-- If all node values are `1`, any value the interpolator returns is `1`. -/
lemma interpLinear_const_one {pts : List (ℚ × ℚ)} (hconst : ∀ z ∈ pts, z.2 = 1)
    {v w : ℚ} (h : interpLinear pts v = some w) : w = 1 := by
  induction pts with
  | nil => rw [interpLinear] at h; exact absurd h (by simp)
  | cons p pts ih =>
      cases pts with
      | nil =>
          rw [interpLinear] at h
          split at h
          · simp only [Option.some_inj] at h
            rw [← h]
            exact hconst p (by simp)
          · exact absurd h (by simp)
      | cons q r =>
          rw [interpLinear] at h
          split at h
          · exact absurd h (by simp)
          · split at h
            · have hp : p.2 = 1 := hconst p (by simp)
              have hq : q.2 = 1 := hconst q (by simp)
              simp only [Option.some_inj] at h
              rw [← h, hp, hq]
              ring
            · exact ih (fun z hz => hconst z (List.mem_cons_of_mem p hz)) h

/-- The interpolator is constant on an initial segment with equal values. -/
lemma interpLinear_flat_head {a b w v u : ℚ} {rest : List (ℚ × ℚ)}
    (h : interpLinear ((a, w) :: (b, w) :: rest) v = some u) (hv : v ≤ b) : u = w := by
  rw [interpLinear] at h
  dsimp only at h
  split at h
  · exact absurd h (by simp)
  · simp only [Option.some_inj] at h
    rw [← h]
    ring

/-- The interpolator is constant on a final segment with equal values. -/
lemma interpLinear_flat_last {pts : List (ℚ × ℚ)} {a b w v u : ℚ}
    (hall : ∀ z ∈ pts, z.1 ≤ a) (hav : a < v)
    (h : interpLinear (pts ++ [(a, w), (b, w)]) v = some u) : u = w := by
  induction pts with
  | nil =>
      rw [List.nil_append, interpLinear] at h
      dsimp only at h
      rw [if_neg (not_lt.mpr (le_of_lt hav))] at h
      split at h
      · simp only [Option.some_inj] at h
        rw [← h]
        ring
      · rw [interpLinear] at h
        dsimp only at h
        split at h
        · simp only [Option.some_inj] at h
          exact h.symm
        · exact absurd h (by simp)
  | cons x pts ih =>
      have hall' : ∀ z ∈ pts, z.1 ≤ a := fun z hz => hall z (List.mem_cons_of_mem x hz)
      have hx1 : x.1 ≤ a := hall x (by simp)
      cases pts with
      | nil =>
          rw [List.cons_append, List.nil_append, interpLinear] at h
          dsimp only at h
          rw [if_neg (not_lt.mpr (le_trans hx1 (le_of_lt hav))),
            if_neg (not_le.mpr hav)] at h
          exact ih (by simp) (by rw [List.nil_append]; exact h)
      | cons p' pts' =>
          have hp'1 : p'.1 ≤ a := hall' p' (by simp)
          rw [List.cons_append, List.cons_append, interpLinear] at h
          rw [if_neg (not_lt.mpr (le_trans hx1 (le_of_lt hav))),
            if_neg (not_le.mpr (lt_of_le_of_lt hp'1 hav))] at h
          exact ih hall' (by rw [List.cons_append]; exact h)

lemma optMap_length {α β : Type} {f : α → Option β} {l : List α} {l' : List β}
    (h : optMap f l = some l') : l'.length = l.length := by
  induction l generalizing l' with
  | nil =>
      rw [optMap] at h
      obtain rfl : [] = l' := Option.some_inj.mp h
      rfl
  | cons a l ih =>
      rw [optMap] at h
      cases hfa : f a with
      | none => rw [hfa] at h; exact absurd h (by simp)
      | some b =>
          rw [hfa] at h
          cases hrest : optMap f l with
          | none => rw [hrest] at h; exact absurd h (by simp)
          | some r =>
              rw [hrest] at h
              obtain rfl : b :: r = l' := by simpa using h
              simpa using ih hrest

lemma optMap_mem_rev {α β : Type} {f : α → Option β} {l : List α} {l' : List β}
    (h : optMap f l = some l') {b : β} (hb : b ∈ l') : ∃ a ∈ l, f a = some b := by
  induction l generalizing l' with
  | nil =>
      rw [optMap] at h
      obtain rfl : [] = l' := Option.some_inj.mp h
      exact absurd hb (by simp)
  | cons a l ih =>
      rw [optMap] at h
      cases hfa : f a with
      | none => rw [hfa] at h; exact absurd h (by simp)
      | some b0 =>
          rw [hfa] at h
          cases hrest : optMap f l with
          | none => rw [hrest] at h; exact absurd h (by simp)
          | some r =>
              rw [hrest] at h
              obtain rfl : b0 :: r = l' := by simpa using h
              rcases List.mem_cons.mp hb with rfl | hb
              · exact ⟨a, by simp, hfa⟩
              · obtain ⟨a', ha', hfa'⟩ := ih hrest hb
                exact ⟨a', List.mem_cons_of_mem a ha', hfa'⟩

lemma optMap_mem_fwd {α β : Type} {f : α → Option β} {l : List α} {l' : List β}
    (h : optMap f l = some l') {a : α} (ha : a ∈ l) : ∃ b ∈ l', f a = some b := by
  induction l generalizing l' with
  | nil => exact absurd ha (by simp)
  | cons a0 l ih =>
      rw [optMap] at h
      cases hfa : f a0 with
      | none => rw [hfa] at h; exact absurd h (by simp)
      | some b0 =>
          rw [hfa] at h
          cases hrest : optMap f l with
          | none => rw [hrest] at h; exact absurd h (by simp)
          | some r =>
              rw [hrest] at h
              obtain rfl : b0 :: r = l' := by simpa using h
              rcases List.mem_cons.mp ha with rfl | ha
              · exact ⟨b0, by simp, hfa⟩
              · obtain ⟨b', hb', hfb'⟩ := ih hrest ha
                exact ⟨b', List.mem_cons_of_mem b0 hb', hfb'⟩

lemma optMap_get {α β : Type} {f : α → Option β} {l : List α} {l' : List β}
    (h : optMap f l = some l') {i : Nat} (h1 : i < l.length) (h2 : i < l'.length) :
    f (l.get ⟨i, h1⟩) = some (l'.get ⟨i, h2⟩) := by
  induction l generalizing l' i with
  | nil => exact absurd h1 (by simp)
  | cons a l ih =>
      rw [optMap] at h
      cases hfa : f a with
      | none => rw [hfa] at h; exact absurd h (by simp)
      | some b =>
          rw [hfa] at h
          cases hrest : optMap f l with
          | none => rw [hrest] at h; exact absurd h (by simp)
          | some r =>
              rw [hrest] at h
              obtain rfl : b :: r = l' := by simpa using h
              match i with
              | 0 => simpa using hfa
              | i + 1 => exact ih hrest (by simpa using h1) (by simpa using h2)

/-- The final `pval *= dpk(kval)` step keeps the k column unchanged. -/
lemma optMap_factor_keys {ext : List (ℚ × ℚ)} {dd out : List (ℚ × ℚ)}
    (h : optMap (fun r => (interpLinear ext r.1).map (fun w => (r.1, r.2 * w))) dd =
      some out) : out.map Prod.fst = dd.map Prod.fst := by
  induction dd generalizing out with
  | nil =>
      rw [optMap] at h
      obtain rfl : [] = out := Option.some_inj.mp h
      rfl
  | cons a dd ih =>
      rw [optMap] at h
      cases hfa : interpLinear ext a.1 with
      | none => rw [hfa] at h; exact absurd h (by simp)
      | some w =>
          rw [hfa] at h
          cases hrest : optMap (fun r => (interpLinear ext r.1).map
              (fun w => (r.1, r.2 * w))) dd with
          | none => rw [hrest] at h; simp at h
          | some r =>
              rw [hrest] at h
              obtain rfl : (a.1, a.2 * w) :: r = out := by simpa using h
              simpa using ih hrest


/-! #### Sorted-list helpers -/

lemma get_zero_eq_headI {l : List ℚ} (h : 0 < l.length) : l.get ⟨0, h⟩ = l.headI := by
  cases l with
  | nil => exact absurd h (by simp)
  | cons a r => rfl

lemma headI_le_of_sorted {l : List ℚ} (hs : l.Pairwise (· ≤ ·)) {x : ℚ} (hx : x ∈ l) :
    l.headI ≤ x := by
  cases l with
  | nil => exact absurd hx (by simp)
  | cons a r =>
      rcases List.mem_cons.mp hx with rfl | hx
      · simp
      · simpa using (List.pairwise_cons.mp hs).1 x hx

lemma all_le_getLast?_of_sorted {l : List ℚ} (hs : l.Pairwise (· ≤ ·)) {K : ℚ}
    (hK : l.getLast? = some K) : ∀ x ∈ l, x ≤ K := by
  induction l with
  | nil => intro x hx; exact absurd hx (by simp)
  | cons a r ih =>
      rw [List.pairwise_cons] at hs
      cases r with
      | nil =>
          intro x hx
          have h1 : x = a := by simpa using hx
          have h2 : a = K := by simpa using hK
          rw [h1, h2]
      | cons b t =>
          rw [List.getLast?_cons_cons] at hK
          intro x hx
          rcases List.mem_cons.mp hx with rfl | hx
          · exact le_trans (hs.1 b (by simp)) (ih hs.2 hK b (by simp))
          · exact ih hs.2 hK x hx

lemma sorted_get_le {l : List ℚ} (hs : l.Pairwise (· ≤ ·)) {i j : Nat} (hij : i ≤ j)
    (hj : j < l.length) : l.get ⟨i, lt_of_le_of_lt hij hj⟩ ≤ l.get ⟨j, hj⟩ := by
  rcases lt_or_eq_of_le hij with h | h
  · exact List.pairwise_iff_get.mp hs ⟨i, _⟩ ⟨j, _⟩ h
  · subst h
    exact le_refl _

lemma sorted_get_lt {l : List ℚ} (hs : l.Pairwise (· < ·)) {i j : Nat} (hij : i < j)
    (hj : j < l.length) : l.get ⟨i, lt_trans hij hj⟩ < l.get ⟨j, hj⟩ :=
  List.pairwise_iff_get.mp hs ⟨i, _⟩ ⟨j, _⟩ hij

lemma pairwise_lt_of_le_nodup {l : List ℚ} (h1 : l.Pairwise (· ≤ ·)) (h2 : l.Nodup) :
    l.Pairwise (· < ·) :=
  (h1.and h2).imp (fun h => lt_of_le_of_ne h.1 h.2)

/-! #### Locating the window and the midpoints -/

lemma pyGet_of_nonneg {α : Type} (xs : List α) {i : Int} (h : 0 ≤ i) :
    pyGet xs i = xs.get? i.toNat := by
  unfold pyGet
  rw [if_pos h]

lemma pyGet_nat {α : Type} (xs : List α) (n : Nat) : pyGet xs (n : Int) = xs.get? n := by
  unfold pyGet
  rw [if_pos (Int.natCast_nonneg n)]
  congr 1

lemma pyGet_nat_sub_one {α : Type} (xs : List α) {n : Nat} (hn : 1 ≤ n) :
    pyGet xs ((n : Int) - 1) = xs.get? (n - 1) := by
  unfold pyGet
  rw [if_pos (by omega : (0 : Int) ≤ (n : Int) - 1)]
  congr 1
  omega

lemma cpskMid_some_pos {sub : List ℚ} {kp m : ℚ} (h : cpskMid sub kp = some m)
    (hone : 1 ≤ searchsorted sub kp) :
    ∃ (hlt : searchsorted sub kp < sub.length),
      m = (sub.get ⟨searchsorted sub kp, hlt⟩ +
        sub.get ⟨searchsorted sub kp - 1, by omega⟩) / 2 := by
  unfold cpskMid at h
  dsimp only at h
  rw [pyGet_nat] at h
  cases ha : sub.get? (searchsorted sub kp) with
  | none => rw [ha] at h; exact absurd h (by simp)
  | some a =>
      rw [ha, pyGet_nat_sub_one sub hone] at h
      cases hb : sub.get? (searchsorted sub kp - 1) with
      | none => rw [hb] at h; exact absurd h (by simp)
      | some b =>
          rw [hb] at h
          obtain ⟨hlt, ha'⟩ := List.get?_eq_some.mp ha
          obtain ⟨hlt', hb'⟩ := List.get?_eq_some.mp hb
          refine ⟨hlt, ?_⟩
          rw [ha', hb']
          simpa using h.symm

lemma searchsorted_pos_of_get_zero {xs : List ℚ} {v : ℚ} (h0 : 0 < xs.length)
    (h : xs.get ⟨0, h0⟩ < v) : 1 ≤ searchsorted xs v := by
  cases xs with
  | nil => exact absurd h0 (by simp)
  | cons x r => exact searchsorted_pos (by simpa using h)

lemma get_zero_drop_take {l : List ℚ} {m n : Nat} (h0 : 0 < ((l.drop m).take n).length) :
    ∃ (hm : m < l.length), ((l.drop m).take n).get ⟨0, h0⟩ = l.get ⟨m, hm⟩ := by
  have hlen := h0
  rw [List.length_take, List.length_drop] at hlen
  have hm : m < l.length := by omega
  refine ⟨hm, ?_⟩
  have h1 : ((l.drop m).take n).get ⟨0, h0⟩ =
      (l.drop m).get ⟨0, by rw [List.length_drop]; omega⟩ :=
    (List.get_take _ (by rw [List.length_drop]; omega) (by omega)).symm
  have h2 : l.get ⟨m + 0, by omega⟩ =
      (l.drop m).get ⟨0, by rw [List.length_drop]; omega⟩ :=
    List.get_drop l (by omega)
  rw [h1, ← h2]
  congr 1

/-- The first entry of the window `kval[imin:imax]` is strictly below the
first knot: either `imin = 0` and it is `kval[0] < knotpos[0]`, or
`imin = i_limits[0] - 5 < i_limits[0]` and it is below `0.66*knotpos[0]`. -/
lemma cpskSub_get_zero_lt {kp kval : List ℚ} (hkval : kval.Pairwise (· ≤ ·))
    (hk0 : kval.headI < kp.headI) (hkp0 : 0 < kp.headI)
    (h0 : 0 < (cpskSub kp kval).length) :
    (cpskSub kp kval).get ⟨0, h0⟩ < kp.headI := by
  unfold cpskSub at h0 ⊢
  obtain ⟨hm, hget⟩ := get_zero_drop_take h0
  rw [hget]
  by_cases hc : searchsorted kval (kp.headI * 0.66) - 5 = 0
  · have hz : cpskImin kp kval = 0 := by unfold cpskImin; omega
    have hfin : (⟨cpskImin kp kval, hm⟩ : Fin kval.length) = ⟨0, by omega⟩ := Fin.ext hz
    rw [hfin, get_zero_eq_headI]
    exact hk0
  · have h5 : cpskImin kp kval < searchsorted kval (kp.headI * 0.66) := by
      unfold cpskImin
      omega
    have := get_lt_of_lt_searchsorted hm h5
    nlinarith

/-! #### The insertion stage as a sorted merge -/

lemma cpskInsKnotpos_eq_mergeIns (kp : List ℚ) {mids : List ℚ}
    (hmids : mids.Pairwise (· ≤ ·)) :
    cpskInsKnotpos kp mids = mergeIns id kp mids := by
  unfold cpskInsKnotpos
  have hzip : List.zip (mids.map (searchsorted kp)) mids = mkIns id kp mids := by
    have h1 := List.zip_map' (searchsorted kp) (fun m => m) mids
    rw [List.map_id'] at h1
    rw [h1]
    unfold mkIns
    rw [List.map_id]
    rfl
  dsimp only
  rw [hzip]
  exact npInsert_mkIns id kp hmids

lemma cpskAugment_eq_mergeIns (pk : ℚ → ℚ) (kp : List ℚ) (mp : List (ℚ × ℚ))
    (mids : List ℚ) (hins : (cpskInsKnotpos kp mids).Pairwise (· ≤ ·)) :
    cpskAugment pk kp mp mids =
      mergeIns Prod.fst mp ((cpskInsKnotpos kp mids).map (fun x => (x, pk x))) := by
  unfold cpskAugment
  dsimp only
  have hzip : List.zip ((cpskInsKnotpos kp mids).map (searchsorted (mp.map Prod.fst)))
      ((cpskInsKnotpos kp mids).map (fun x => (x, pk x))) =
      mkIns Prod.fst mp ((cpskInsKnotpos kp mids).map (fun x => (x, pk x))) := by
    rw [List.zip_map']
    unfold mkIns
    rw [List.map_map]
    rfl
  rw [hzip]
  apply npInsert_mkIns
  rw [List.pairwise_map]
  simpa using hins

lemma le_getLastD_of_sorted {l : List ℚ} (hs : l.Pairwise (· ≤ ·)) {x : ℚ} (hx : x ∈ l) :
    x ≤ l.getLastD 0 := by
  obtain ⟨K, hK⟩ : ∃ K, l.getLast? = some K := by
    cases hgl : l.getLast? with
    | none => exact absurd (List.getLast?_eq_none_iff.mp hgl) (List.ne_nil_of_mem hx)
    | some K => exact ⟨K, rfl⟩
  rw [List.getLastD_eq_getLast?, hK]
  exact all_le_getLast?_of_sorted hs hK x hx

lemma cpskMid_sub_nonempty {sub : List ℚ} {kp m : ℚ} (h : cpskMid sub kp = some m) :
    0 < sub.length := by
  cases sub with
  | nil =>
      unfold cpskMid at h
      dsimp only at h
      rw [pyGet_nat] at h
      simp at h
  | cons a r => simp

lemma headI_mem_of_ne_nil {α : Type} [Inhabited α] {l : List α} (h : l ≠ []) :
    l.headI ∈ l := by
  cases l with
  | nil => exact absurd rfl h
  | cons a r => simp

lemma cpskInsert_some_inv {pk : ℚ → ℚ} {kp : List ℚ} {mp aug : List (ℚ × ℚ)}
    (h : cpskInsert pk kp mp = some aug) :
    ∃ mids, optMap (cpskMid (cpskSub kp (mp.map Prod.fst))) kp = some mids ∧
      aug = cpskAugment pk kp mp mids := by
  cases kp with
  | nil => rw [cpskInsert] at h; exact absurd h (by simp)
  | cons a l =>
      rw [cpskInsert] at h
      cases hmids : optMap (cpskMid (cpskSub (a :: l) (mp.map Prod.fst))) (a :: l) with
      | none => rw [hmids] at h; exact absurd h (by simp)
      | some mids => rw [hmids] at h; exact ⟨mids, rfl, by simpa using h.symm⟩

set_option maxHeartbeats 1000000 in
/-- The insertion stage, for valid inputs: the augmented table is the
sorted-merge of the original rows with new rows `(x, pkInterp x)` whose
keys all lie strictly inside the table's k-range. -/
lemma cpskInsert_props {pk : ℚ → ℚ} {kp : List ℚ} {mp : List (ℚ × ℚ)}
    {aug : List (ℚ × ℚ)}
    (hmp : mp ≠ [])
    (hkval : (mp.map Prod.fst).Pairwise (· < ·))
    (hpos : ∀ k ∈ mp.map Prod.fst, 0 < k)
    (hkp : kp.Pairwise (· < ·))
    (hrange : ∀ x ∈ kp, (mp.map Prod.fst).headI < x ∧ x < (mp.map Prod.fst).getLastD 0)
    (h : cpskInsert pk kp mp = some aug) :
    ∃ ins : List ℚ,
      ins.Pairwise (· ≤ ·) ∧
      (∀ x ∈ ins, (mp.map Prod.fst).headI < x ∧ x < (mp.map Prod.fst).getLastD 0) ∧
      aug = mergeIns Prod.fst mp ((cpskInsKnotpos kp ins).map (fun x => (x, pk x))) ∧
      cpskInsKnotpos kp ins = mergeIns id kp ins := by
  have hkpne : kp ≠ [] := by
    intro hc
    rw [hc, cpskInsert] at h
    exact absurd h (by simp)
  set kval := mp.map Prod.fst with hkvaldef
  clear_value kval
  have hkvne : kval ≠ [] := by
    rw [hkvaldef]
    simpa using hmp
  have hkvalle : kval.Pairwise (· ≤ ·) := hkval.imp le_of_lt
  have hkple : kp.Pairwise (· ≤ ·) := hkp.imp le_of_lt
  have hkp0mem : kp.headI ∈ kp := headI_mem_of_ne_nil hkpne
  have hk0lt : kval.headI < kp.headI := (hrange kp.headI hkp0mem).1
  have hkp0pos : 0 < kp.headI :=
    lt_trans (hpos kval.headI (headI_mem_of_ne_nil hkvne)) hk0lt
  obtain ⟨mids, hmids, haug⟩ := cpskInsert_some_inv h
  rw [← hkvaldef] at hmids
  set sub := cpskSub kp kval with hsubdef
  clear_value sub
  have hlen : mids.length = kp.length := optMap_length hmids
  -- the window is nonempty and starts strictly below the first knot
  have hsub0 : 0 < sub.length := by
    have h1 : (0 : Nat) < kp.length := List.length_pos.mpr hkpne
    have h2 : (0 : Nat) < mids.length := by omega
    have := optMap_get hmids h1 h2
    exact cpskMid_sub_nonempty this
  have hsubhead : sub.get ⟨0, hsub0⟩ < kp.headI := by
    have := cpskSub_get_zero_lt hkvalle hk0lt hkp0pos
    rw [← hsubdef] at this
    exact this hsub0
  have hsubsort : sub.Pairwise (· < ·) := by
    have hsl : sub.Sublist kval := by
      rw [hsubdef]
      unfold cpskSub
      exact List.Sublist.trans (List.take_sublist _ _) (List.drop_sublist _ _)
    exact List.Pairwise.sublist hsl hkval
  have hsuble : sub.Pairwise (· ≤ ·) := hsubsort.imp le_of_lt
  have hsubmem : ∀ x ∈ sub, x ∈ kval := by
    have hsl : sub.Sublist kval := by
      rw [hsubdef]
      unfold cpskSub
      exact List.Sublist.trans (List.take_sublist _ _) (List.drop_sublist _ _)
    exact fun x hx => hsl.subset hx
  -- each midpoint in terms of its bracketing window samples
  have hmid : ∀ i : Fin mids.length,
      ∃ (hone : 1 ≤ searchsorted sub (kp.get ⟨i, by omega⟩))
        (hlt : searchsorted sub (kp.get ⟨i, by omega⟩) < sub.length),
        mids.get i = (sub.get ⟨searchsorted sub (kp.get ⟨i, by omega⟩), hlt⟩ +
          sub.get ⟨searchsorted sub (kp.get ⟨i, by omega⟩) - 1, by omega⟩) / 2 := by
    intro i
    have hkpi : (i : Nat) < kp.length := by omega
    have helem := optMap_get hmids hkpi i.isLt
    have hge : kp.headI ≤ kp.get ⟨i, hkpi⟩ :=
      headI_le_of_sorted hkple (List.get_mem _ _ _)
    have hone : 1 ≤ searchsorted sub (kp.get ⟨i, hkpi⟩) :=
      searchsorted_pos_of_get_zero hsub0 (lt_of_lt_of_le hsubhead hge)
    obtain ⟨hlt, hm⟩ := cpskMid_some_pos helem hone
    exact ⟨hone, hlt, by simpa using hm⟩
  -- midpoints are sorted
  have hmidsort : mids.Pairwise (· ≤ ·) := by
    rw [List.pairwise_iff_get]
    intro i j hij
    obtain ⟨honei, hlti, hmi⟩ := hmid i
    obtain ⟨honej, hltj, hmj⟩ := hmid j
    have hkpij : kp.get ⟨i, by omega⟩ ≤ kp.get ⟨j, by omega⟩ :=
      sorted_get_le hkple (le_of_lt hij) _
    have hloc : searchsorted sub (kp.get ⟨i, by omega⟩) ≤
        searchsorted sub (kp.get ⟨j, by omega⟩) := searchsorted_mono sub hkpij
    have h1 : sub.get ⟨searchsorted sub (kp.get ⟨i, by omega⟩), hlti⟩ ≤
        sub.get ⟨searchsorted sub (kp.get ⟨j, by omega⟩), hltj⟩ :=
      sorted_get_le hsuble hloc _
    have h2 : sub.get ⟨searchsorted sub (kp.get ⟨i, by omega⟩) - 1, by omega⟩ ≤
        sub.get ⟨searchsorted sub (kp.get ⟨j, by omega⟩) - 1, by omega⟩ :=
      sorted_get_le hsuble (by omega) _
    rw [hmi, hmj]
    linarith
  -- midpoints lie strictly inside the table's k-range
  have hmidrange : ∀ x ∈ mids, kval.headI < x ∧ x < kval.getLastD 0 := by
    intro x hx
    obtain ⟨i, hi⟩ := List.mem_iff_get.mp hx
    obtain ⟨hone, hlt, hm⟩ := hmid i
    have hb : sub.get ⟨searchsorted sub (kp.get ⟨i, by omega⟩) - 1, by omega⟩ <
        sub.get ⟨searchsorted sub (kp.get ⟨i, by omega⟩), hlt⟩ :=
      sorted_get_lt hsubsort (by omega) _
    have hbk : kval.headI ≤
        sub.get ⟨searchsorted sub (kp.get ⟨i, by omega⟩) - 1, by omega⟩ :=
      headI_le_of_sorted hkvalle (hsubmem _ (List.get_mem _ _ _))
    have hak : sub.get ⟨searchsorted sub (kp.get ⟨i, by omega⟩), hlt⟩ ≤
        kval.getLastD 0 :=
      le_getLastD_of_sorted hkvalle (hsubmem _ (List.get_mem _ _ _))
    rw [← hi, hm]
    constructor
    · linarith
    · linarith
  -- the merged insertion list
  have hinseq : cpskInsKnotpos kp mids = mergeIns id kp mids :=
    cpskInsKnotpos_eq_mergeIns kp hmidsort
  have hinssort : (cpskInsKnotpos kp mids).Pairwise (· ≤ ·) := by
    rw [hinseq]
    exact (mergeIns_sorted (f := id) (hkple.imp fun h => h)
      (hmidsort.imp fun h => h)).imp fun h => h
  have hinsrange : ∀ x ∈ cpskInsKnotpos kp mids,
      kval.headI < x ∧ x < kval.getLastD 0 := by
    intro x hx
    rw [hinseq] at hx
    rcases mem_mergeIns hx with hx | hx
    · exact hrange x hx
    · exact hmidrange x hx
  refine ⟨mids, hmidsort, hmidrange, ?_, hinseq⟩
  rw [haug]
  exact cpskAugment_eq_mergeIns pk kp mp mids hinssort

/-- Inversion of a successful `change_power_spectrum_knots` call. -/
lemma cpsk_some_inv {pk : ℚ → ℚ} {kp kv : List ℚ} {mp out : List (ℚ × ℚ)}
    (h : change_power_spectrum_knots pk kp kv mp = some out) :
    cpskPreChecks kp kv mp = true ∧ mp ≠ [] ∧ kv ≠ [] ∧
    ∃ aug, cpskInsert pk kp mp = some aug ∧
      ((dedup aug).map Prod.fst).Nodup ∧
      optMap (fun r => (interpLinear (extKnots kp kv mp) r.1).map
        (fun w => (r.1, r.2 * w))) (dedup aug) = some out := by
  cases mp with
  | nil => rw [change_power_spectrum_knots] at h; exact absurd h (by simp)
  | cons m0 mpr =>
      cases kv with
      | nil => rw [change_power_spectrum_knots] at h; exact absurd h (by simp)
      | cons v0 kvr =>
          rw [change_power_spectrum_knots] at h
          split at h
          · cases hins : cpskInsert pk kp (m0 :: mpr) with
            | none => rw [hins] at h; exact absurd h (by simp)
            | some aug =>
                rw [hins, Option.some_bind] at h
                split at h
                · exact ⟨by assumption, by simp, by simp, aug, rfl, by assumption, h⟩
                · exact absurd h (by simp)
          · exact absurd h (by simp)

/-- A valid input in the sense of the spec: nonempty strictly-increasing
positive power table, nonempty strictly-increasing knot vector of the
same length as the value vector, every knot strictly inside the table's
k-range. -/
def validInput (knotpos knotval : List ℚ) (matpow : List (ℚ × ℚ)) : Prop :=
  matpow ≠ [] ∧
  (matpow.map Prod.fst).Pairwise (· < ·) ∧
  (∀ k ∈ matpow.map Prod.fst, 0 < k) ∧
  knotpos ≠ [] ∧
  knotpos.Pairwise (· < ·) ∧
  knotval.length = knotpos.length ∧
  (∀ x ∈ knotpos, (matpow.map Prod.fst).headI < x ∧ x < (matpow.map Prod.fst).getLastD 0) ∧
  List.Chain' (fun a b => ¬(|b - a| < 1e-5 * b)) (matpow.map Prod.fst)

/-- C7.  For every valid input, the table returned by
`change_power_spectrum_knots` has strictly increasing (hence unique) k
values: the augmented table is a sorted merge, deletion preserves order,
and the uniqueness assert guarantees no duplicates among the returned
rows. -/
theorem cpsk_output_strictly_increasing (pk : ℚ → ℚ) (kp kv : List ℚ)
    (mp out : List (ℚ × ℚ)) (hv : validInput kp kv mp)
    (h : change_power_spectrum_knots pk kp kv mp = some out) :
    (out.map Prod.fst).Pairwise (· < ·) := by
  obtain ⟨hpre, hmpne, hkvne, aug, hins, hnodup, hfac⟩ := cpsk_some_inv h
  obtain ⟨hmp, hkval, hpos, hkpne, hkp, hlen, hrange, hnodup2⟩ := hv
  obtain ⟨ins, hinssort, hinsrange, haug, hinseq⟩ :=
    cpskInsert_props hmp hkval hpos hkp hrange hins
  have hins2 : (cpskInsKnotpos kp ins).Pairwise (· ≤ ·) := by
    rw [hinseq]
    exact (mergeIns_sorted (f := id) ((hkp.imp le_of_lt).imp fun hx => hx)
      (hinssort.imp fun hx => hx)).imp fun hx => hx
  have haugsort : (aug.map Prod.fst).Pairwise (· ≤ ·) := by
    rw [haug, List.pairwise_map]
    apply mergeIns_sorted
    · exact (List.pairwise_map.mp hkval).imp le_of_lt
    · rw [List.pairwise_map]
      simpa using hins2
  have hddsort : ((dedup aug).map Prod.fst).Pairwise (· ≤ ·) :=
    List.Pairwise.sublist ((dedup_sublist aug).map Prod.fst) haugsort
  have houtkeys : out.map Prod.fst = (dedup aug).map Prod.fst := optMap_factor_keys hfac
  rw [houtkeys]
  exact pairwise_lt_of_le_nodup hddsort hnodup

/-- The concrete run used by several witnesses:
`change_power_spectrum_knots` with `pkInterp = 1`, knots `[1, 3]` with
values `[1, 2]` on the table `[(1/2,1), (2,1), (6,1), (8,1)]`.  The knots
and the midpoints `1.25` and `4` are inserted (with `pkInterp` P-values),
nothing collides, and each P is scaled by the linear correction. -/
lemma cpsk_concrete_runA :
    change_power_spectrum_knots (fun _ => 1) [1, 3] [1, 2]
      [(1/2, 1), (2, 1), (6, 1), (8, 1)] =
    some [(1/2, 1), (1, 1), (5/4, 9/8), (2, 3/2), (3, 2), (4, 2), (6, 2), (8, 2)] := by
  norm_num [change_power_spectrum_knots, cpskPreChecks, npAll, cpskInsert, cpskSub,
    cpskImin, cpskImax, cpskMid, pyGet_of_nonneg, searchsorted, optMap, cpskAugment,
    cpskInsKnotpos, npInsert, dedup, extKnots, interpLinear, abs_of_nonneg,
    abs_of_nonpos, List.all]
  all_goals simp
  all_goals norm_num [dedup, interpLinear, abs_of_nonneg, abs_of_nonpos, npInsert,
    searchsorted, optMap]

lemma validInputA : validInput [1, 3] [1, 2] [(1/2, 1), (2, 1), (6, 1), (8, 1)] := by
  norm_num [validInput, List.pairwise_cons, abs_of_nonneg, abs_of_nonpos]
  exact ⟨by simp, by simp⟩

/-- Witness for C7: the concrete run
`change_power_spectrum_knots(pk=1, [1,3], [1,2], [(1/2,1),(2,1),(6,1),(8,1)])`. -/
theorem cpsk_output_strictly_increasing_witness :
    (([((1 : ℚ)/2, (1 : ℚ)), (1, 1), (5/4, 9/8), (2, 3/2), (3, 2), (4, 2), (6, 2),
      (8, 2)] : List (ℚ × ℚ)).map Prod.fst).Pairwise (· < ·) :=
  cpsk_output_strictly_increasing (fun _ => 1) [1, 3] [1, 2]
    [(1/2, 1), (2, 1), (6, 1), (8, 1)] _ validInputA cpsk_concrete_runA

/-- C6.  Boundary flatness: the multiplicative correction `dpk` applied
to an output row at `k` below the first knot equals the first knot value,
and above the last knot equals the last knot value — the extended
boundary knots `(0.95*kmin, knotval[0])` and `(1.05*kmax, knotval[-1])`
make the two outer segments of the linear interpolant constant. -/
theorem cpsk_boundary_flatness (pk : ℚ → ℚ) (kp kv : List ℚ) (mp out : List (ℚ × ℚ))
    (hv : validInput kp kv mp)
    (h : change_power_spectrum_knots pk kp kv mp = some out) :
    (∀ r ∈ out, r.1 < kp.headI →
      interpLinear (extKnots kp kv mp) r.1 = some kv.headI) ∧
    (∀ r ∈ out, kp.getLastD 0 < r.1 →
      interpLinear (extKnots kp kv mp) r.1 = some (kv.getLastD 0)) := by
  obtain ⟨hmp, hkval, hpos, hkpne, hkp, hlen, hrange, hnodup2⟩ := hv
  obtain ⟨hpre, hmpne, hkvne, aug, hins, hnodup, hfac⟩ := cpsk_some_inv h
  have hsome : ∀ r ∈ out, ∃ a ∈ dedup aug, r.1 = a.1 ∧
      ∃ w, interpLinear (extKnots kp kv mp) a.1 = some w ∧ r = (a.1, a.2 * w) := by
    intro r hr
    obtain ⟨a, ha, hfa⟩ := optMap_mem_rev hfac hr
    cases hw : interpLinear (extKnots kp kv mp) a.1 with
    | none => rw [hw] at hfa; exact absurd hfa (by simp)
    | some w =>
        rw [hw] at hfa
        refine ⟨a, ha, ?_, w, hw, ?_⟩
        · have : (a.1, a.2 * w) = r := by simpa using hfa
          rw [← this]
        · have : (a.1, a.2 * w) = r := by simpa using hfa
          rw [← this]
  obtain ⟨kp0, kpr, rfl⟩ : ∃ a l, kp = a :: l := by
    cases kp with
    | nil => exact absurd rfl hkpne
    | cons a l => exact ⟨a, l, rfl⟩
  obtain ⟨kv0, kvr, rfl⟩ : ∃ a l, kv = a :: l := by
    cases kv with
    | nil => exact absurd rfl hkvne
    | cons a l => exact ⟨a, l, rfl⟩
  set kval := mp.map Prod.fst with hkvaldef
  have hkvalne : kval ≠ [] := by rw [hkvaldef]; simpa using hmp
  have hk0pos : 0 < kval.headI := hpos _ (headI_mem_of_ne_nil hkvalne)
  have hk0kp0 : kval.headI < kp0 := (hrange kp0 (by simp)).1
  -- the head of the extended knot list: two nodes with value kv0
  have hext : extKnots (kp0 :: kpr) (kv0 :: kvr) mp =
      (kval.headI * 0.95, kv0) :: (kp0, kv0) ::
        List.zip (kpr ++ [kval.getLastD 0 * 1.05]) (kvr ++ [(kv0 :: kvr).getLastD 0]) := by
    unfold extKnots
    rw [← hkvaldef]
    rfl
  constructor
  · intro r hr hrlt
    obtain ⟨a, ha, hra, w, hw, hrw⟩ := hsome r hr
    rw [hra, hw]
    congr 1
    have : r.1 ≤ kp0 := le_of_lt (by simpa using hrlt)
    rw [hext] at hw
    rw [hra] at this
    exact interpLinear_flat_head hw this
  · intro r hr hrgt
    obtain ⟨a, ha, hra, w, hw, hrw⟩ := hsome r hr
    rw [hra, hw]
    congr 1
    -- decompose the extended knots from the back
    have hkpne' : (kp0 :: kpr) ≠ [] := by simp
    have hkvne' : (kv0 :: kvr) ≠ [] := by simp
    set kpL := (kp0 :: kpr).getLast hkpne' with hkpL
    set kvL := (kv0 :: kvr).getLast hkvne' with hkvL
    have hkpLD : (kp0 :: kpr).getLastD 0 = kpL := by
      rw [List.getLastD_eq_getLast?, List.getLast?_eq_getLast _ hkpne']
      rfl
    have hkvLD : (kv0 :: kvr).getLastD 0 = kvL := by
      rw [List.getLastD_eq_getLast?, List.getLast?_eq_getLast _ hkvne']
      rfl
    obtain ⟨dLp, hdLp⟩ : ∃ d, (kp0 :: kpr).dropLast = d := ⟨_, rfl⟩
    obtain ⟨dLv, hdLv⟩ : ∃ d, (kv0 :: kvr).dropLast = d := ⟨_, rfl⟩
    have hdp : kp0 :: kpr = dLp ++ [kpL] := by
      rw [← hdLp, hkpL]
      exact (List.dropLast_append_getLast hkpne').symm
    have hdv : kv0 :: kvr = dLv ++ [kvL] := by
      rw [← hdLv, hkvL]
      exact (List.dropLast_append_getLast hkvne').symm
    have hlend : dLp.length = dLv.length := by
      have h1 := congrArg List.length hdp
      have h2 := congrArg List.length hdv
      simp only [List.length_append, List.length_cons] at h1 h2
      simp only [List.length_cons] at hlen
      omega
    have hsplit : extKnots (kp0 :: kpr) (kv0 :: kvr) mp =
        List.zip (kval.headI * 0.95 :: dLp) (kv0 :: dLv) ++
          [(kpL, kvL), (kval.getLastD 0 * 1.05, kvL)] := by
      unfold extKnots
      rw [← hkvaldef, hkvLD]
      dsimp only
      simp only [List.headI_cons]
      conv_lhs => rw [hdp, hdv]
      rw [← List.cons_append, ← List.cons_append]
      rw [List.append_assoc, List.append_assoc]
      rw [List.zip_append (by simp [hlend])]
      rfl
    have hall : ∀ z ∈ List.zip (kval.headI * 0.95 :: dLp) (kv0 :: dLv), z.1 ≤ kpL := by
      intro z hz
      obtain ⟨z1, z2⟩ := z
      have hz1 := (List.of_mem_zip hz).1
      have hkp0L : kp0 ≤ kpL :=
        all_le_getLast?_of_sorted (hkp.imp le_of_lt)
          (List.getLast?_eq_getLast _ hkpne') kp0 (by simp)
      rcases List.mem_cons.mp hz1 with rfl | hz1
      · dsimp only
        nlinarith
      · have hz1' : z1 ∈ kp0 :: kpr := by
          rw [hdp]
          exact List.mem_append_left _ hz1
        exact all_le_getLast?_of_sorted (hkp.imp le_of_lt)
          (List.getLast?_eq_getLast _ hkpne') z1 hz1'
    rw [hsplit] at hw
    rw [hkpLD] at hrgt
    rw [hra] at hrgt
    rw [hkvLD]
    exact interpLinear_flat_last hall hrgt hw

/-- Witness for C6 on the concrete run A: the output rows at `k = 1/2`
(below the first knot `1`) get the factor `knotval[0] = 1`, and the rows
at `k = 6, 8` (above the last knot `3`) get the factor `knotval[-1] = 2`. -/
theorem cpsk_boundary_flatness_witness :
    (∀ r ∈ ([(1/2, 1), (1, 1), (5/4, 9/8), (2, 3/2), (3, 2), (4, 2), (6, 2), (8, 2)] :
        List (ℚ × ℚ)), r.1 < ([1, 3] : List ℚ).headI →
      interpLinear (extKnots [1, 3] [1, 2] [((1 : ℚ)/2, (1 : ℚ)), (2, 1), (6, 1), (8, 1)])
        r.1 = some (([1, 2] : List ℚ).headI)) ∧
    (∀ r ∈ ([(1/2, 1), (1, 1), (5/4, 9/8), (2, 3/2), (3, 2), (4, 2), (6, 2), (8, 2)] :
        List (ℚ × ℚ)), ([1, 3] : List ℚ).getLastD 0 < r.1 →
      interpLinear (extKnots [1, 3] [1, 2] [((1 : ℚ)/2, (1 : ℚ)), (2, 1), (6, 1), (8, 1)])
        r.1 = some (([1, 2] : List ℚ).getLastD 0)) :=
  cpsk_boundary_flatness (fun _ => 1) [1, 3] [1, 2]
    [(1/2, 1), (2, 1), (6, 1), (8, 1)] _ validInputA cpsk_concrete_runA

/-- C3.  The range precondition is NOT enforced by the source: the knot
`5` lies above the table's maximum k `3`, yet the assert block passes,
because `assert np.all(knotpos) > kval[0] and np.all(knotpos) < kval[-1]`
compares the scalar boolean `np.all(knotpos)` (here `1.0`) with the table
bounds instead of comparing each knot.  The call then dies much later
with an `IndexError` (modelled as `none`) at the fancy indexing
`kval[imin:imax][locations]` inside the midpoint insertion — a crash in
the middle of the computation, not an immediate input-validation error. -/
theorem cpsk_out_of_range_knot_not_rejected :
    ¬ ((5 : ℚ) < (([((1 : ℚ)/2, (1 : ℚ)), (2, 1), (3, 1)] : List (ℚ × ℚ)).map
        Prod.fst).getLastD 0) ∧
    cpskPreChecks [5] [2] [((1 : ℚ)/2, (1 : ℚ)), (2, 1), (3, 1)] = true ∧
    cpskInsert (fun _ => 1) [5] [((1 : ℚ)/2, (1 : ℚ)), (2, 1), (3, 1)] = none ∧
    change_power_spectrum_knots (fun _ => 1) [5] [2]
      [((1 : ℚ)/2, (1 : ℚ)), (2, 1), (3, 1)] = none := by
  refine ⟨by norm_num, ?_, ?_, ?_⟩
  · norm_num [cpskPreChecks, npAll, List.all]
  · norm_num [cpskInsert, cpskSub, cpskImin, cpskImax, cpskMid, pyGet_of_nonneg,
      searchsorted, optMap]
    all_goals simp
  · norm_num [change_power_spectrum_knots, cpskPreChecks, npAll, cpskInsert, cpskSub,
      cpskImin, cpskImax, cpskMid, pyGet_of_nonneg, searchsorted, optMap, cpskAugment,
      cpskInsKnotpos, npInsert, dedup, extKnots, interpLinear, abs_of_nonneg,
      abs_of_nonpos, List.all]
    all_goals simp

/-- The all-ones run used by the C5 witness: knots `[1, 4]` with values
`[1, 1]` on the table `[(1/2,1), (2,1), (6,1), (8,1)]`; every correction
factor is `1`, so the surviving rows keep their P values. -/
lemma cpsk_concrete_runC :
    change_power_spectrum_knots (fun _ => 1) [1, 4] [1, 1]
      [(1/2, 1), (2, 1), (6, 1), (8, 1)] =
    some [(1/2, 1), (1, 1), (5/4, 1), (2, 1), (4, 1), (6, 1), (8, 1)] := by
  norm_num [change_power_spectrum_knots, cpskPreChecks, npAll, cpskInsert, cpskSub,
    cpskImin, cpskImax, cpskMid, pyGet_of_nonneg, searchsorted, optMap, cpskAugment,
    cpskInsKnotpos, npInsert, dedup, extKnots, interpLinear, abs_of_nonneg,
    abs_of_nonpos, List.all]
  all_goals simp
  all_goals norm_num [dedup, interpLinear, abs_of_nonneg, abs_of_nonpos, npInsert,
    searchsorted, optMap]

lemma validInputC : validInput [1, 4] [1, 1] [(1/2, 1), (2, 1), (6, 1), (8, 1)] := by
  norm_num [validInput, List.pairwise_cons, abs_of_nonneg, abs_of_nonpos]
  exact ⟨by simp, by simp⟩

/-- C5.  Knot identity: with all knot values equal to `1` every extended
node value is `1`, so every correction factor returned by the linear
interpolant is `1` and each output row equals its row in the augmented
de-duplicated table.  Consequently (i) whenever an original k survives
into the output, its P is exactly the original table's P at that k (the
survivor of the near-duplicate scan at any key is the last row with that
key, and the sorted merge puts the original row last among equal keys,
matching `searchsorted`'s `side='left'`), and (ii) every output row is
either an original row or an inserted row whose P is the local log-log
cubic interpolant's value at its k. -/
theorem cpsk_knot_identity (pk : ℚ → ℚ) (kp kv : List ℚ)
    (mp out : List (ℚ × ℚ)) (hv : validInput kp kv mp)
    (hones : ∀ v ∈ kv, v = 1)
    (h : change_power_spectrum_knots pk kp kv mp = some out) :
    (∀ r ∈ mp, ∀ p', (r.1, p') ∈ out → p' = r.2) ∧
    (∀ r ∈ out, r ∈ mp ∨ r.2 = pk r.1) := by
  obtain ⟨hmp, hkval, hpos, hkpne, hkp, hlen, hrange, hnodup2⟩ := hv
  obtain ⟨hpre, hmpne, hkvne, aug, hins, hnodup, hfac⟩ := cpsk_some_inv h
  -- all extended node values are 1
  have hextones : ∀ z ∈ extKnots kp kv mp, z.2 = 1 := by
    intro z hz
    unfold extKnots at hz
    have h2 := (List.of_mem_zip hz).2
    rcases List.mem_cons.mp h2 with h2 | h2
    · rw [h2]
      exact hones _ (headI_mem_of_ne_nil hkvne)
    · rcases List.mem_append.mp h2 with h2 | h2
      · exact hones _ h2
      · have h2' : z.2 = kv.getLastD 0 := by simpa using h2
        have hmem : kv.getLastD 0 ∈ kv := by
          rw [List.getLastD_eq_getLast?, List.getLast?_eq_getLast _ hkvne,
            Option.getD_some]
          exact List.getLast_mem hkvne
        rw [h2']
        exact hones _ hmem
  -- every output row equals its de-dup preimage
  have hsome : ∀ r ∈ out, r ∈ dedup aug := by
    intro r hr
    obtain ⟨a, ha, hfa⟩ := optMap_mem_rev hfac hr
    cases hw : interpLinear (extKnots kp kv mp) a.1 with
    | none => rw [hw] at hfa; exact absurd hfa (by simp)
    | some w =>
        rw [hw] at hfa
        have hw1 : w = 1 := interpLinear_const_one hextones hw
        obtain rfl : (a.1, a.2 * w) = r := by simpa using hfa
        rw [hw1, mul_one]
        simpa using ha
  -- decomposition of the augmented table into a sorted merge
  obtain ⟨ins, hinssort, hinsrange, haug, hinseq⟩ :=
    cpskInsert_props hmp hkval hpos hkp hrange hins
  have hins2 : (cpskInsKnotpos kp ins).Pairwise (· ≤ ·) := by
    rw [hinseq]
    exact (mergeIns_sorted (f := id) ((hkp.imp le_of_lt).imp fun hx => hx)
      (hinssort.imp fun hx => hx)).imp fun hx => hx
  have hinsrange2 : ∀ x ∈ cpskInsKnotpos kp ins,
      (mp.map Prod.fst).headI < x ∧ x < (mp.map Prod.fst).getLastD 0 := by
    intro x hx
    rw [hinseq] at hx
    rcases mem_mergeIns hx with hx | hx
    · exact hrange x hx
    · exact hinsrange x hx
  have hk0pos : 0 < (mp.map Prod.fst).headI :=
    hpos _ (headI_mem_of_ne_nil (by simpa using hmp))
  have hmps : mp.Pairwise (fun a b => a.1 < b.1) := List.pairwise_map.mp hkval
  have hvs : ((cpskInsKnotpos kp ins).map (fun x => (x, pk x))).Pairwise
      (fun a b => a.1 ≤ b.1) := by
    rw [List.pairwise_map]
    simpa using hins2
  have haugle : aug.Pairwise (fun a b => a.1 ≤ b.1) := by
    rw [haug]
    exact mergeIns_sorted (hmps.imp fun hx => le_of_lt hx) hvs
  have haugpos : ∀ z ∈ aug, 0 < z.1 := by
    rw [haug]
    intro z hz
    rcases mem_mergeIns hz with hz | hz
    · exact hpos z.1 (List.mem_map.mpr ⟨z, hz, rfl⟩)
    · obtain ⟨x, hx, rfl⟩ := List.mem_map.mp hz
      exact lt_trans hk0pos (hinsrange2 x hx).1
  refine ⟨?_, ?_⟩
  · -- original k's that survive keep their original P
    intro r hr p' hout
    have hdd : ((r.1, p') : ℚ × ℚ) ∈ dedup aug := hsome _ hout
    have hlast := dedup_last_of_mem haugle haugpos hdd
    rw [haug] at hlast
    have hkeq : ((r.1, p') : ℚ × ℚ).1 = r.1 := rfl
    simp only [hkeq] at hlast
    rw [mergeIns_filter_key hmps hvs hr, List.getLast?_concat] at hlast
    have heq : r = (r.1, p') := Option.some_inj.mp hlast
    exact (congrArg Prod.snd heq).symm
  · -- provenance of every output row
    intro r hr
    have hraug : r ∈ aug := (dedup_sublist aug).subset (hsome r hr)
    rw [haug] at hraug
    rcases mem_mergeIns hraug with h' | h'
    · exact Or.inl h'
    · obtain ⟨x, hx, rfl⟩ := List.mem_map.mp h'
      exact Or.inr rfl

/-- Witness for C5 on the all-ones run C: the original rows at
`1/2, 2, 6, 8` keep P = 1, and the inserted rows at `1, 5/4, 4` carry
the (constant-one) interpolant's value. -/
theorem cpsk_knot_identity_witness :
    (∀ r ∈ ([((1 : ℚ)/2, (1 : ℚ)), (2, 1), (6, 1), (8, 1)] : List (ℚ × ℚ)), ∀ p',
      (r.1, p') ∈ ([(1/2, 1), (1, 1), (5/4, 1), (2, 1), (4, 1), (6, 1), (8, 1)] :
        List (ℚ × ℚ)) → p' = r.2) ∧
    (∀ r ∈ ([(1/2, 1), (1, 1), (5/4, 1), (2, 1), (4, 1), (6, 1), (8, 1)] :
        List (ℚ × ℚ)),
      r ∈ ([((1 : ℚ)/2, (1 : ℚ)), (2, 1), (6, 1), (8, 1)] : List (ℚ × ℚ)) ∨
      r.2 = (1 : ℚ)) :=
  cpsk_knot_identity (fun _ => 1) [1, 4] [1, 1]
    [(1/2, 1), (2, 1), (6, 1), (8, 1)] _ validInputC (by norm_num) cpsk_concrete_runC
